import Mathlib

/-!
# A verification model of `im2scr.py`

This file gives a shallow embedding, in Lean 4, of the ZX Spectrum image
converter implemented by the Python class `zx` in `im2scr.py`, together with
theorems about the embedded program.

Modelling conventions:

* Machine integers of the source are modelled as `Nat` (all values involved
  are small non-negative integers); bitwise operators `&`, `|`, `<<`, `>>`
  become `&&&`, `|||`, `<<<`, `>>>` on `Nat`.
* The source compares floating point distances `abs(v - self._mid)` and
  `abs(v - self._hgh)` where `self._mid = 0.85 * self._hgh` and both `v` and
  `self._hgh` are integers in `0..255`.  The embedding multiplies both sides
  of the comparison by `20` and works over `ℤ`:
  `|20*v - 17*hgh| < 20*|v - hgh|`, which is exactly equivalent over the
  reals to `|v - 0.85*hgh| < |v - hgh|` (and the quantities involved are far
  from the region where double rounding of `0.85 * hgh` could flip the
  comparison, since all inputs are integers and `17*hgh % 20` keeps a margin
  of at least `1/20` whenever the two sides are not exactly equal scaled
  integers).
* Python exceptions become an `Except Err` result; `Err` distinguishes the
  untyped `ValueError` raised by `list.index` from the `ZXException`s the
  program raises itself.
* PIL presents every accepted image with a 256-entry histogram and a
  768-value palette, padding unsupplied entries with black.  `Img.numcolors`
  models `len(im.histogram())`, and the concrete images used in the
  counterexample and witnesses below use this padded 256-entry shape
  wherever the padding entries could influence the traced behaviour (for
  the all-black `img63`, black padding classifies identically to the one
  supplied entry and the pixels reference only entry 0, so the shorter
  palette yields the same conversion result).
* The mutable pixel buffer `buf` returned by `im.load()` is modelled as a
  function `Nat → Nat → Nat` giving the palette index of pixel `(x, y)`;
  the in-place update of `swappaper0` becomes the construction of a new
  function.
* Python 2 dictionaries do not have a specified iteration order.  In
  `selectcolors` the embedding fixes a concrete deterministic order (the
  order of `List.dedup`) for the keys of the count dictionary before the
  `sorted(..., key=c.get, reverse=True)` call; the theorems about
  `selectcolors` only concern cells whose non-zero colour frequencies are
  pairwise distinct, where every order of equal-count keys produces the same
  sorted list.
-/

namespace ZXM

/-- Errors raised by the program.  `valueError` is Python's built-in
`ValueError` (raised by `apal.index(0)` when no entry equals `0`); the other
constructors correspond to the `ZXException`s raised with the quoted
messages in `im2scr.py`. -/
inductive Err where
  /-- Python `ValueError`, e.g. from `list.index` when the value is absent. -/
  | valueError
  /-- `ZXException("Picture uses more than 16 colors")` -/
  | tooManyColors
  /-- `ZXException("Palette conversion not successful")` -/
  | classConflict
  /-- `ZXException("Color attribute has BRIGHT conflict")` -/
  | attrConflict
  /-- `ZXException("Cannot save an image because height is not mod 64")` -/
  | layoutSize
  deriving DecidableEq, Repr

/-- `zx.BLACKTRESH = 100`. -/
def BLACKTRESH : Nat := 100

/-- `zx._palette = [0x00, 0x01, 0x04, 0x05, 0x02, 0x03, 0x06, 0x07]`:
conversion table from the internal R/G/B presence code (R=4, G=2, B=1) to
the ZX Spectrum attribute hue code (G=4, R=2, B=1). -/
def zxPalette : List Nat := [0x00, 0x01, 0x04, 0x05, 0x02, 0x03, 0x06, 0x07]

/-- `zx.y2zx`: convert a linear y position to a ZX Spectrum y position.
Source:
`hh = y & 0b00111000; hl = y & 0b00000111; return y & 0xc0 | hh >> 3 | hl << 3`. -/
def y2zx (y : Nat) : Nat :=
  y &&& 0xc0 ||| (y &&& 0b00111000) >>> 3 ||| (y &&& 0b00000111) <<< 3

/-- The comparison `abs(v - self._mid) < abs(v - self._hgh)` from
`zx.verifyrgb`, where `self._mid = 0.85 * self._hgh` (set in `pal2attr`).
Both sides are multiplied by `20`, which turns `0.85 * hgh` into the integer
`17 * hgh` and keeps the comparison exact. -/
def closerToMid (hgh v : Nat) : Bool :=
  |20 * (v : ℤ) - 17 * (hgh : ℤ)| < 20 * |(v : ℤ) - (hgh : ℤ)|

/-- One channel of the candidate computation in `zx.verifyrgb`: if the
channel value is at least `BLACKTRESH`, set `bit` in the dim candidate `c`
(first component) when the value is closer to `mid`, otherwise in the bright
candidate `cb` (second component). -/
def chan (hgh v bit : Nat) (ccb : Nat × Nat) : Nat × Nat :=
  if v ≥ BLACKTRESH then
    if closerToMid hgh v then (ccb.1 ||| bit, ccb.2) else (ccb.1, ccb.2 ||| bit)
  else ccb

/-- The pair `(c, cb)` of dim/bright candidate codes computed by the three
`if` blocks of `zx.verifyrgb` (R contributes 4, G contributes 2, B
contributes 1). -/
def candidates (hgh r g b : Nat) : Nat × Nat :=
  chan hgh b 1 (chan hgh g 2 (chan hgh r 4 (0, 0)))

/-- `zx.verifyrgb`: classify one palette entry.  On a BRIGHT conflict
(`c > 0 and cb > 0`) the preference tri-state decides: prefer-bright merges
into `cb` and returns `_palette[cb] | 0x40`, prefer-dim merges into `c` and
returns `_palette[c]`, and an unset preference raises
`ZXException("Palette conversion not successful")`. -/
def verifyrgb (prefer : Option Bool) (hgh r g b : Nat) : Except Err Nat :=
  let cc := candidates hgh r g b
  let c := cc.1
  let cb := cc.2
  if c > 0 ∧ cb > 0 then
    match prefer with
    | some true => .ok (zxPalette.getD (cb ||| c) 0 ||| 0x40)
    | some false => .ok (zxPalette.getD (c ||| cb) 0)
    | none => .error .classConflict
  else if c = 0 ∧ cb = 0 then .ok (zxPalette.getD 0 0)
  else if c ≠ 0 then .ok (zxPalette.getD c 0)
  else .ok (zxPalette.getD cb 0 ||| 0x40)

/-- The largest colour component found by the first loop of `zx.pal2attr`
(`if pal[i] > self._hgh: self._hgh = pal[i]`, starting from `0`). -/
def maxChan (pal : List Nat) : Nat :=
  pal.foldl (fun h v => if v > h then v else h) 0

/-- The flat palette regrouped into `num` RGB triples
(`r = pal[i*3+0]; g = pal[i*3+1]; b = pal[i*3+2]`). -/
def triples (pal : List Nat) (num : Nat) : List (Nat × Nat × Nat) :=
  (List.range num).map fun i => (pal.getD (3 * i) 0, pal.getD (3 * i + 1) 0, pal.getD (3 * i + 2) 0)

/-- The `while i < num` classification loop of `zx.pal2attr`, raising the
first classification error encountered. -/
def classifyAll (prefer : Option Bool) (hgh : Nat) :
    List (Nat × Nat × Nat) → Except Err (List Nat)
  | [] => .ok []
  | t :: rest =>
    match verifyrgb prefer hgh t.1 t.2.1 t.2.2 with
    | .error e => .error e
    | .ok a =>
      match classifyAll prefer hgh rest with
      | .error e => .error e
      | .ok as => .ok (a :: as)

/-- `zx.pal2attr`: find the largest channel value over the first `num`
entries, then classify each entry with `verifyrgb`. -/
def pal2attr (prefer : Option Bool) (pal : List Nat) (num : Nat) : Except Err (List Nat) :=
  classifyAll prefer (maxChan (pal.take (num * 3))) (triples pal num)

/-- The per-pixel exchange performed by `zx.swappaper0`: pixels equal to
`paper0` become `0`, pixels equal to `0` become `paper0`. -/
def swapPix (paper0 p : Nat) : Nat :=
  if p = paper0 then 0 else if p = 0 then paper0 else p

/-- `zx.swappaper0`: swap pixel values `0` and `paper0` everywhere inside
the `size[0] × size[1]` extent of the buffer, and exchange palette entries
`0` and `paper0` (`tmp = pal[0]; pal[0] = pal[paper0]; pal[paper0] = tmp`). -/
def swappaper0 (buf : Nat → Nat → Nat) (w h : Nat) (pal : List Nat) (paper0 : Nat) :
    (Nat → Nat → Nat) × List Nat :=
  (fun x y => if x < w ∧ y < h then swapPix paper0 (buf x y) else buf x y,
   (pal.set 0 (pal.getD paper0 0)).set paper0 (pal.getD 0 0))

/-- The background-normalisation step of `zx.im2scr`
(`paper0 = apal.index(0); if paper0 != 0: self.swappaper0(...)`).
`list.index` raises `ValueError` when no entry equals `0`. -/
def normalize (buf : Nat → Nat → Nat) (w h : Nat) (apal : List Nat) :
    Except Err ((Nat → Nat → Nat) × List Nat) :=
  match apal.findIdx? (· == 0) with
  | none => .error .valueError
  | some paper0 => .ok (if paper0 ≠ 0 then swappaper0 buf w h apal paper0 else (buf, apal))

/-- The pixel values of the cell scanned by `zx.selectcolors`: rows
`stay..stay+h-1`, columns `stax..stax+w-1`, in scan order. -/
def cellPixels (buf : Nat → Nat → Nat) (stax stay w h : Nat) : List Nat :=
  (List.range h).flatMap fun dy => (List.range w).map fun dx => buf (stax + dx) (stay + dy)

/-- The keys of the count dictionary of `zx.selectcolors` after
`c.pop(0, None)`: the distinct non-zero pixel values of the cell.  Python 2
dictionaries carry no specified order; the embedding fixes the order of
`List.dedup`. -/
def nzColors (ps : List Nat) : List Nat := (ps.filter fun p => p ≠ 0).dedup

/-- `sorted(c, key=c.get, reverse=True)`: the distinct non-zero colours
sorted by descending pixel count. -/
def sortedColors (ps : List Nat) : List Nat :=
  List.insertionSort (fun a b => ps.count b ≤ ps.count a) (nzColors ps)

/-- `zx.selectcolors`: pick the (paper, ink) palette indices of one cell. -/
def selectcolors (buf : Nat → Nat → Nat) (stax stay w h : Nat) : Nat × Nat :=
  let ps := cellPixels buf stax stay w h
  match sortedColors ps with
  | [] => (0, 0)
  | c0 :: rest =>
    if 0 ∈ ps then (0, c0)
    else
      match rest with
      | [] => (c0, c0)
      | c1 :: _ => (c0, c1)

/-- Cell width used by `zx.im2scr`:
`w = 8 if x + 8 < im.size[0] else im.size[0] - x` with `x = 8 * cx`. -/
def cellW (w cx : Nat) : Nat := if 8 * cx + 8 < w then 8 else w - 8 * cx

/-- Cell height used by `zx.im2scr`:
`h = 8 if y + 8 < im.size[1] else im.size[1] - y` with `y = 8 * cy`. -/
def cellH (h cy : Nat) : Nat := if 8 * cy + 8 < h then 8 else h - 8 * cy

/-- The dictionary `tmp` of `zx.im2scr`, as a function from cell
coordinates `(cx, cy)` to the `(paper, ink)` pair chosen for the cell. -/
def mkCells (buf : Nat → Nat → Nat) (w h : Nat) : Nat → Nat → Nat × Nat :=
  fun cx cy => selectcolors buf (8 * cx) (8 * cy) (cellW w cx) (cellH h cy)

/-- The per-pixel ink decision of the bitmap loop of `zx.im2scr`:
`if pixel and pixel != tmp[x >> 3, y >> 3][0]: gfx += 1`. -/
def inkBit (buf : Nat → Nat → Nat) (cells : Nat → Nat → Nat × Nat) (x y : Nat) : Bool :=
  decide (buf x y ≠ 0 ∧ buf x y ≠ (cells (x >>> 3) (y >>> 3)).1)

/-- The end-of-row flush of the bitmap loop of `zx.im2scr`:
`while not gfx & 0x100: gfx = gfx << 1`, then the value stored is
`gfx & 0xff`.  The loop body runs at most 7 times when `2 ≤ gfx < 256`,
so a fuel of 8 is always sufficient; the fuel-exhausted branch is
unreachable for the arguments the program produces. -/
def padShift : Nat → Nat → Nat
  | 0, gfx => gfx &&& 0xff
  | fuel + 1, gfx => if gfx &&& 0x100 ≠ 0 then gfx &&& 0xff else padShift fuel (gfx <<< 1)

/-- The inner `for x` loop of the bitmap packer of `zx.im2scr`, carrying the
shift register `gfx` (sentinel bit plus accumulated pixel bits): shift in
each pixel bit, emit `gfx & 0xff` and reset to `1` whenever the sentinel
reaches bit 8, and after the last pixel flush a partially filled byte with
`padShift`. -/
def packRowAux : Nat → List Bool → List Nat
  | gfx, [] => if gfx > 1 then [padShift 8 gfx] else []
  | gfx, bit :: rest =>
    let g := (gfx <<< 1) + (if bit then 1 else 0)
    if g &&& 0x100 ≠ 0 then (g &&& 0xff) :: packRowAux 1 rest
    else packRowAux g rest

/-- One row of the bitmap: the packer loop started with `gfx = 1`. -/
def packRow (bits : List Bool) : List Nat := packRowAux 1 bits

/-- The bitmap buffer produced by the `for y` loop of `zx.im2scr` (the
bytes written to `self._scr`, in order). -/
def mkScr (buf : Nat → Nat → Nat) (cells : Nat → Nat → Nat × Nat) (w h : Nat) : List Nat :=
  (List.range h).flatMap fun y => packRow ((List.range w).map fun x => inkBit buf cells x y)

/-- The final width in bytes computed by `zx.im2scr`:
`int(x >> 3 if x % 8 == 0 else (x >> 3) + 1)` with `x = im.size[0]` (the
loop variable equals `im.size[0] - 1` after the loop and is incremented).
The same formula computes `y8`, the height of the attribute grid. -/
def ceil8 (v : Nat) : Nat := if v % 8 = 0 then v >>> 3 else (v >>> 3) + 1

/-- The attribute byte computation for one cell in `zx.im2scr`: resolve a
BRIGHT conflict between nonzero `paper` and `ink` attributes via the
preference (raising on an unset preference), then pack
`(ink | (paper << 3)) & 0xff`.  `ink &= ~0x40` is `Nat.ldiff ink 0x40`. -/
def encodeAttr (prefer : Option Bool) (paper ink : Nat) : Except Err Nat :=
  if paper ≠ 0 ∧ ink ≠ 0 ∧ (paper ^^^ ink) &&& 0x40 ≠ 0 then
    match prefer with
    | some true => .ok (((ink ||| 0x40) ||| (paper <<< 3)) &&& 0xff)
    | some false => .ok ((Nat.ldiff ink 0x40 ||| (paper <<< 3)) &&& 0xff)
    | none => .error .attrConflict
  else .ok ((ink ||| (paper <<< 3)) &&& 0xff)

/-- The cell coordinates visited by the attribute loop of `zx.im2scr`:
`for y in xrange(y8): for x in xrange(self._w)`. -/
def cellIdxs (y8 wB : Nat) : List (Nat × Nat) :=
  (List.range y8).flatMap fun y => (List.range wB).map fun x => (x, y)

/-- The attribute loop of `zx.im2scr`: encode each visited cell, raising
the first conflict encountered. -/
def encodeCells (prefer : Option Bool) (apal : List Nat) (cells : Nat → Nat → Nat × Nat) :
    List (Nat × Nat) → Except Err (List Nat)
  | [] => .ok []
  | (x, y) :: rest =>
    match encodeAttr prefer (apal.getD (cells x y).1 0) (apal.getD (cells x y).2 0) with
    | .error e => .error e
    | .ok bv =>
      match encodeCells prefer apal cells rest with
      | .error e => .error e
      | .ok bs => .ok (bv :: bs)

/-- The input image, as handed to `zx.im2scr`: a `PIL.Image` in palette
mode.  `pal` is the flat R,G,B palette (`im.getpalette()`), `numcolors` the
number of palette entries (for PIL palette images, the length of
`im.histogram()`), and `px x y` the palette index of pixel `(x, y)`
(`im.load()[x, y]`, defined for `x < w`, `y < h`). -/
structure Img where
  w : Nat
  h : Nat
  pal : List Nat
  numcolors : Nat
  px : Nat → Nat → Nat

/-- The pixels of the image in scan order (used for `im.histogram()`). -/
def pixList (img : Img) : List Nat :=
  (List.range img.h).flatMap fun y => (List.range img.w).map fun x => img.px x y

/-- `im.histogram()`: the number of pixels of each palette index. -/
def histogram (img : Img) : List Nat :=
  (List.range img.numcolors).map fun i => (pixList img).count i

/-- The state of a `zx` object after `im2scr` ran: the emitted bitmap and
attribute bytes (the filled prefixes of `self._scr` / `self._attr`),
`self._scrSize`, `self._attrSize`, `self._w` (width in bytes) and
`self._h` (height in pixels). -/
structure St where
  scr : List Nat
  attr : List Nat
  scrSize : Nat
  attrSize : Nat
  w : Nat
  h : Nat
  deriving DecidableEq, Repr

/-- `zx.im2scr`: the conversion pipeline.  The final `x + 1` / `y + 1`
leftovers of the Python loops equal `im.size[0]` / `im.size[1]` whenever
both dimensions are at least 1, which is what the embedding uses (a
zero-sized image would crash the source with an unbound local). -/
def im2scr (prefer : Option Bool) (img : Img) : Except Err St :=
  let hist := histogram img
  if hist.length - hist.count 0 > 16 then .error .tooManyColors
  else
    match pal2attr prefer img.pal img.numcolors with
    | .error e => .error e
    | .ok apal0 =>
      match normalize img.px img.w img.h apal0 with
      | .error e => .error e
      | .ok (buf, apal) =>
        let cells := mkCells buf img.w img.h
        let scr := mkScr buf cells img.w img.h
        let wB := ceil8 img.w
        let y8 := ceil8 img.h
        match encodeCells prefer apal cells (cellIdxs y8 wB) with
        | .error e => .error e
        | .ok attr => .ok ⟨scr, attr, scr.length, attr.length, wB, img.h⟩

/-- `zx.getScrSize`. -/
def getScrSize (st : St) : Nat := st.scrSize

/-- `zx.getAttrSize`. -/
def getAttrSize (st : St) : Nat := st.attrSize

/-- The bitmap rows in native ZX Spectrum order, as written by the
non-linear branch of `zx.saveZX`:
`f.write(buffer(self._scr, zx.y2zx(y) * self._w, self._w))` for each `y`. -/
def zxRows (st : St) : List Nat :=
  (List.range st.h).flatMap fun y => (st.scr.drop (y2zx y * st.w)).take st.w

/-- `zx.saveZX`: the byte stream written to the output file.  Linear mode
writes the first `scrSize` bitmap bytes; native mode requires
`self._h % 64 == 0` and writes the rows permuted by `y2zx`; in both modes
the first `attrSize` attribute bytes follow unpermuted when `attrs` is
set. -/
def saveZX (st : St) (attrs linear : Bool) : Except Err (List Nat) :=
  let attrPart := if attrs then st.attr.take st.attrSize else []
  if linear then .ok (st.scr.take st.scrSize ++ attrPart)
  else if st.h % 64 ≠ 0 then .error .layoutSize
  else .ok (zxRows st ++ attrPart)

end ZXM

namespace ZXM

/-! ## Specification-side view of the row packer

`packChunks` describes the packer output as MSB-first byte values of the
8-bit chunks of the row, the last chunk zero-padded at the low end; the
lemmas below prove that `packRow` computes exactly this. -/

/-- MSB-first value of a bit list. -/
def bitsVal (bs : List Bool) : Nat :=
  bs.foldl (fun a bit => 2 * a + (if bit then 1 else 0)) 0

/-- The shift register encoding a partial byte: sentinel bit above the
accumulated bits. -/
def gfxOf (bs : List Bool) : Nat :=
  bs.foldl (fun a bit => 2 * a + (if bit then 1 else 0)) 1

/-- The byte value of one chunk of at most 8 bits: the bits occupy the most
significant positions, the low positions are zero. -/
def byteOfChunk (bs : List Bool) : Nat := bitsVal bs <<< (8 - bs.length)

/-- The row bytes, chunk by chunk. -/
def packChunks (bits : List Bool) : List Nat :=
  if h : bits = [] then [] else byteOfChunk (bits.take 8) :: packChunks (bits.drop 8)
termination_by bits.length
decreasing_by
  simp only [List.length_drop]
  have hp : 0 < bits.length := List.length_pos.mpr h
  omega

theorem foldl_bits (bs : List Bool) :
    ∀ a : Nat, bs.foldl (fun a bit => 2 * a + (if bit then 1 else 0)) a
      = a * 2 ^ bs.length + bitsVal bs := by
  induction bs with
  | nil => intro a; simp [bitsVal]
  | cons b bs ih =>
    intro a
    simp only [List.foldl_cons, List.length_cons, bitsVal] at *
    rw [ih (2 * a + if b then 1 else 0), ih (2 * 0 + if b then 1 else 0)]
    ring

theorem bitsVal_lt (bs : List Bool) : bitsVal bs < 2 ^ bs.length := by
  induction bs with
  | nil => simp [bitsVal]
  | cons b bs ih =>
    have h := foldl_bits bs (2 * 0 + if b then 1 else 0)
    simp only [bitsVal, List.foldl_cons, List.length_cons] at *
    rw [h, pow_succ]
    have : (if b then 1 else 0) ≤ 1 := by split <;> omega
    nlinarith [pow_pos (by omega : (0:ℕ) < 2) bs.length]

theorem gfxOf_eq (bs : List Bool) : gfxOf bs = 2 ^ bs.length + bitsVal bs := by
  have h := foldl_bits bs 1
  simpa [gfxOf] using h

theorem bitsVal_append_one (bs : List Bool) (b : Bool) :
    bitsVal (bs ++ [b]) = 2 * bitsVal bs + (if b then 1 else 0) := by
  simp [bitsVal, List.foldl_append]

theorem gfxOf_append_one (bs : List Bool) (b : Bool) :
    gfxOf (bs ++ [b]) = 2 * gfxOf bs + (if b then 1 else 0) := by
  simp [gfxOf, List.foldl_append]

theorem and_255_eq_mod (x : Nat) : x &&& 0xff = x % 256 := by
  have h := Nat.and_pow_two_sub_one_eq_mod x 8
  norm_num at h
  exact h

theorem and_256_eq_zero {x : Nat} (h : x < 256) : x &&& 0x100 = 0 := by
  have h256 : (0x100 : ℕ) = 2 ^ 8 := by norm_num
  rw [h256, Nat.and_two_pow, Nat.testBit_lt_two_pow (by norm_num; omega)]
  simp

theorem and_256_ne_zero {x : Nat} (h1 : 256 ≤ x) (h2 : x < 512) : x &&& 0x100 ≠ 0 := by
  have h256 : (0x100 : ℕ) = 2 ^ 8 := by norm_num
  have hbit : x.testBit 8 = true := by
    rw [Nat.testBit_to_div_mod]
    simp only [decide_eq_true_eq]
    have : x / 2 ^ 8 = 1 := by norm_num; omega
    rw [this]
  rw [h256, Nat.and_two_pow, hbit]
  norm_num

theorem padShift_spec : ∀ (fuel k v : Nat), 1 ≤ k → k ≤ 8 → v < 2 ^ k → 8 - k ≤ fuel →
    padShift fuel (2 ^ k + v) = v <<< (8 - k) := by
  intro fuel
  induction fuel with
  | zero =>
    intro k v h1 h8 hv hf
    have hk : k = 8 := by omega
    subst hk
    norm_num at hv ⊢
    simp only [padShift]
    rw [and_255_eq_mod]
    omega
  | succ fuel ih =>
    intro k v h1 h8 hv hf
    rcases Nat.lt_or_ge k 8 with hk | hk
    · have hpow : (2 : ℕ) ^ (k + 1) ≤ 2 ^ 8 := Nat.pow_le_pow_right (by omega) (by omega)
      have hps : (2 : ℕ) ^ (k + 1) = 2 * 2 ^ k := by rw [pow_succ]; ring
      have hlt : 2 ^ k + v < 256 := by norm_num at hpow; omega
      have hbit := and_256_eq_zero hlt
      simp only [padShift]
      rw [if_neg (by simp [hbit])]
      have hsh : (2 ^ k + v) <<< 1 = 2 ^ (k + 1) + 2 * v := by
        rw [Nat.shiftLeft_eq, pow_succ]
        ring
      rw [hsh]
      have h2v : 2 * v < 2 ^ (k + 1) := by omega
      rw [ih (k + 1) (2 * v) (by omega) (by omega) h2v (by omega)]
      have hk8 : 8 - k = (8 - (k + 1)) + 1 := by omega
      rw [Nat.shiftLeft_eq, Nat.shiftLeft_eq, hk8, pow_succ]
      ring
    · have hk8 : k = 8 := by omega
      subst hk8
      norm_num at hv ⊢
      have hbit := and_256_ne_zero (x := 256 + v) (by omega) (by omega)
      simp only [padShift]
      rw [if_pos (by norm_num at hbit ⊢; exact hbit)]
      rw [and_255_eq_mod]
      omega

theorem packChunks_nil : packChunks [] = [] := by
  rw [packChunks]
  simp

theorem packChunks_cons (bits : List Bool) (h : bits ≠ []) :
    packChunks bits = byteOfChunk (bits.take 8) :: packChunks (bits.drop 8) := by
  rw [packChunks]
  simp [h]

theorem packRowAux_eq (bits : List Bool) :
    ∀ pre : List Bool, pre.length < 8 → packRowAux (gfxOf pre) bits = packChunks (pre ++ bits) := by
  induction bits with
  | nil =>
    intro pre hpre
    simp only [packRowAux, List.append_nil]
    by_cases hp : pre = []
    · subst hp
      simp [gfxOf, packChunks_nil]
    · have hlen : 0 < pre.length := List.length_pos.mpr hp
      have hg := gfxOf_eq pre
      have hv := bitsVal_lt pre
      have h2 : 2 ≤ 2 ^ pre.length := by
        calc (2:ℕ) = 2 ^ 1 := by norm_num
        _ ≤ 2 ^ pre.length := Nat.pow_le_pow_right (by omega) hlen
      rw [if_pos (by omega), hg,
        padShift_spec 8 pre.length (bitsVal pre) hlen (by omega) hv (by omega),
        packChunks_cons pre hp, List.take_of_length_le (by omega),
        List.drop_eq_nil_of_le (by omega), packChunks_nil, byteOfChunk]
  | cons b rest ih =>
    intro pre hpre
    simp only [packRowAux]
    have hg1 : (gfxOf pre) <<< 1 + (if b then 1 else 0) = gfxOf (pre ++ [b]) := by
      rw [gfxOf_append_one, Nat.shiftLeft_eq]
      ring
    rw [hg1]
    have hglen : (pre ++ [b]).length = pre.length + 1 := by simp
    have hg := gfxOf_eq (pre ++ [b])
    have hv := bitsVal_lt (pre ++ [b])
    have hne : pre ++ b :: rest ≠ [] := by simp
    by_cases hc : pre.length = 7
    · have h8 : (pre ++ [b]).length = 8 := by omega
      have hv8 : bitsVal (pre ++ [b]) < 256 := by
        rw [h8] at hv
        norm_num at hv
        exact hv
      have hb1 : gfxOf (pre ++ [b]) = 256 + bitsVal (pre ++ [b]) := by
        rw [hg, h8]
        norm_num
      have hb : 256 ≤ gfxOf (pre ++ [b]) ∧ gfxOf (pre ++ [b]) < 512 := by omega
      rw [if_pos (and_256_ne_zero hb.1 hb.2)]
      rw [packChunks_cons _ hne]
      have htake : (pre ++ b :: rest).take 8 = pre ++ [b] := by
        rw [List.take_append_eq_append_take, List.take_of_length_le (by omega)]
        congr 1
        rw [hc]
        rfl
      have hdrop : (pre ++ b :: rest).drop 8 = rest := by
        rw [List.drop_append_eq_append_drop, List.drop_eq_nil_of_le (by omega), hc]
        rfl
      rw [htake, hdrop]
      congr 1
      · rw [hg, and_255_eq_mod]
        rw [h8] at hv ⊢
        rw [byteOfChunk, h8]
        norm_num
        omega
      · rw [show (1:Nat) = gfxOf [] from rfl, ih [] (by simp)]
        rfl
    · have hlt : gfxOf (pre ++ [b]) < 256 := by
        rw [hg]
        have hv' := hv
        simp only [List.length_append, List.length_singleton, pow_succ] at hv' ⊢
        have hp : (2:ℕ) ^ pre.length ≤ 2 ^ 6 := Nat.pow_le_pow_right (by omega) (by omega)
        norm_num at hp
        omega
      rw [if_neg (by simp [and_256_eq_zero hlt])]
      rw [ih (pre ++ [b]) (by simp; omega)]
      congr 1
      rw [List.append_assoc]
      rfl

theorem packRow_eq (bits : List Bool) : packRow bits = packChunks bits := by
  rw [packRow, show (1:Nat) = gfxOf [] from rfl, packRowAux_eq bits [] (by simp)]
  rfl

theorem length_packChunks_le :
    ∀ (n : Nat) (bits : List Bool), bits.length ≤ n →
      (packChunks bits).length = (bits.length + 7) / 8 := by
  intro n
  induction n with
  | zero =>
    intro bits hb
    have : bits = [] := List.eq_nil_of_length_eq_zero (by omega)
    subst this
    simp [packChunks_nil]
  | succ n ih =>
    intro bits hb
    by_cases h : bits = []
    · subst h
      simp [packChunks_nil]
    · have hlen : 0 < bits.length := List.length_pos.mpr h
      rw [packChunks_cons _ h]
      rw [List.length_cons, ih (bits.drop 8) (by simp; omega)]
      simp only [List.length_drop]
      omega

theorem length_packChunks (bits : List Bool) :
    (packChunks bits).length = (bits.length + 7) / 8 :=
  length_packChunks_le bits.length bits le_rfl

theorem length_packRow (bits : List Bool) :
    (packRow bits).length = (bits.length + 7) / 8 := by
  rw [packRow_eq, length_packChunks]

theorem getD_false_of_le (bs : List Bool) (n : Nat) (h : bs.length ≤ n) :
    bs.getD n false = false := by
  rw [List.getD_eq_getElem?_getD, List.getElem?_eq_none h]
  rfl

theorem testBit_bitsVal (bs : List Bool) :
    ∀ j, j < bs.length → Nat.testBit (bitsVal bs) (bs.length - 1 - j) = bs.getD j false := by
  induction bs using List.reverseRecOn with
  | nil => intro j hj; simp at hj
  | append_singleton bs b ih =>
    intro j hj
    rw [bitsVal_append_one]
    simp only [List.length_append, List.length_singleton] at hj ⊢
    by_cases hje : j = bs.length
    · subst hje
      have hpos : bs.length + 1 - 1 - bs.length = 0 := by omega
      rw [hpos, Nat.testBit_zero]
      have hg : (bs ++ [b]).getD bs.length false = b := by
        rw [List.getD_eq_getElem?_getD, List.getElem?_append_right (le_refl _)]
        simp
      rw [hg]
      rcases b with _ | _ <;> simp <;> omega
    · have hjlt : j < bs.length := by omega
      have hidx : bs.length + 1 - 1 - j = (bs.length - 1 - j) + 1 := by omega
      rw [hidx, Nat.testBit_add_one]
      have hdiv : (2 * bitsVal bs + (if b then 1 else 0)) / 2 = bitsVal bs := by
        rcases b with _ | _ <;> simp <;> omega
      rw [hdiv]
      have hg : (bs ++ [b]).getD j false = bs.getD j false := by
        rw [List.getD_eq_getElem?_getD, List.getElem?_append, if_pos hjlt,
          ← List.getD_eq_getElem?_getD]
      rw [hg, ih j hjlt]

theorem testBit_byteOfChunk (bs : List Bool) (hle : bs.length ≤ 8) (j : Nat) (hj : j < 8) :
    Nat.testBit (byteOfChunk bs) (7 - j) = bs.getD j false := by
  rw [byteOfChunk, Nat.testBit_shiftLeft]
  by_cases hjl : j < bs.length
  · have hdec : decide (7 - j ≥ 8 - bs.length) = true := by
      simp only [ge_iff_le, decide_eq_true_eq]
      omega
    have hidx : 7 - j - (8 - bs.length) = bs.length - 1 - j := by omega
    rw [hdec, hidx, Bool.true_and]
    exact testBit_bitsVal bs j hjl
  · have hdec : decide (7 - j ≥ 8 - bs.length) = false := by
      simp only [ge_iff_le, decide_eq_false_iff_not]
      omega
    rw [hdec, Bool.false_and, getD_false_of_le bs j (by omega)]

theorem testBit_packChunks :
    ∀ (i : Nat) (bits : List Bool) (j : Nat), j < 8 → i < (packChunks bits).length →
      Nat.testBit ((packChunks bits).getD i 0) (7 - j) = bits.getD (8 * i + j) false := by
  intro i
  induction i with
  | zero =>
    intro bits j hj hi
    by_cases h : bits = []
    · subst h; simp [packChunks_nil] at hi
    · rw [packChunks_cons _ h] at hi ⊢
      rw [List.getD_cons_zero,
        testBit_byteOfChunk _ (by rw [List.length_take]; omega) j hj,
        List.getD_eq_getElem?_getD, List.getD_eq_getElem?_getD, List.getElem?_take,
        if_pos hj]
      congr 2
      omega
  | succ i ih =>
    intro bits j hj hi
    by_cases h : bits = []
    · subst h; simp [packChunks_nil] at hi
    · rw [packChunks_cons _ h] at hi ⊢
      rw [List.getD_cons_succ]
      have hlen : i < (packChunks (bits.drop 8)).length := by
        simp only [List.length_cons] at hi
        omega
      rw [ih (bits.drop 8) j hj hlen,
        List.getD_eq_getElem?_getD, List.getD_eq_getElem?_getD, List.getElem?_drop]
      congr 2
      ring

theorem getD_flatten_const :
    ∀ (ls : List (List Nat)) (W i q : Nat), (∀ l ∈ ls, l.length = W) → q < W →
      i < ls.length → (ls.flatten).getD (i * W + q) 0 = (ls.getD i []).getD q 0 := by
  intro ls
  induction ls with
  | nil => intro W i q _ _ hi; simp at hi
  | cons l ls ih =>
    intro W i q hW hq hi
    have hl : l.length = W := hW l (by simp)
    rw [List.flatten_cons]
    cases i with
    | zero =>
      have hidx : 0 * W + q = q := by ring
      rw [hidx, List.getD_cons_zero, List.getD_eq_getElem?_getD, List.getElem?_append,
        if_pos (by omega), ← List.getD_eq_getElem?_getD]
    | succ i =>
      rw [List.getD_cons_succ]
      have hidx : (i + 1) * W + q = l.length + (i * W + q) := by rw [hl]; ring
      rw [List.getD_eq_getElem?_getD, hidx, List.getElem?_append_right (by omega)]
      have hsub : l.length + (i * W + q) - l.length = i * W + q := by omega
      rw [hsub, ← List.getD_eq_getElem?_getD]
      exact ih W i q (fun l' hl' => hW l' (by simp [hl'])) hq
        (by simp only [List.length_cons] at hi; omega)

theorem ceil8_eq (v : Nat) : ceil8 v = (v + 7) / 8 := by
  rw [ceil8, Nat.shiftRight_eq_div_pow]
  norm_num
  split <;> omega

/-- The bits of row `y` of the bitmap, before packing. -/
def rowBits (buf : Nat → Nat → Nat) (cells : Nat → Nat → Nat × Nat) (w y : Nat) : List Bool :=
  (List.range w).map fun x => inkBit buf cells x y

theorem mkScr_byte (buf : Nat → Nat → Nat) (cells : Nat → Nat → Nat × Nat)
    (w h y q : Nat) (hy : y < h) :
    (mkScr buf cells w h).getD (y * ceil8 w + q) 0 =
      (packChunks (rowBits buf cells w y)).getD q 0 ∨ ¬ q < ceil8 w := by
  by_cases hq : q < ceil8 w
  · left
    rw [mkScr, List.flatMap_def]
    have hrows : ∀ l ∈ (List.range h).map
        (fun y => packRow ((List.range w).map fun x => inkBit buf cells x y)),
        l.length = ceil8 w := by
      intro l hl
      simp only [List.mem_map, List.mem_range] at hl
      obtain ⟨y', _, rfl⟩ := hl
      rw [length_packRow, List.length_map, List.length_range, ceil8_eq]
    rw [getD_flatten_const _ (ceil8 w) y q hrows hq (by simp [hy])]
    have hrow : ((List.range h).map
        (fun y => packRow ((List.range w).map fun x => inkBit buf cells x y))).getD y []
          = packRow (rowBits buf cells w y) := by
      rw [List.getD_eq_getElem?_getD, List.getElem?_map, List.getElem?_range hy]
      rfl
    rw [hrow, packRow_eq]
  · right
    exact hq

/-- **C2**: for every in-range pixel `(x, y)` the bitmap packer sets bit
`7 - (x mod 8)` of byte `x >> 3` of row `y` (rows are `ceil8 w` bytes wide)
to `1` exactly when `pixel(x,y) != 0` and `pixel(x,y) != paper` of cell
`(x >> 3, y >> 3)`; bits are packed MSB-first, rows are byte-aligned, and in
a short final byte of a non-multiple-of-8 row the bit positions past the
row width are `0` (the pixel bits occupy the most significant positions). -/
theorem c2_bitmap_packing (buf : Nat → Nat → Nat) (cells : Nat → Nat → Nat × Nat)
    (w h x y : Nat) (hx : x < w) (hy : y < h) :
    (Nat.testBit ((mkScr buf cells w h).getD (y * ceil8 w + x >>> 3) 0) (7 - x % 8)
      = decide (buf x y ≠ 0 ∧ buf x y ≠ (cells (x >>> 3) (y >>> 3)).1))
    ∧ ∀ q j, q < ceil8 w → j < 8 → w ≤ 8 * q + j →
        Nat.testBit ((mkScr buf cells w h).getD (y * ceil8 w + q) 0) (7 - j) = false := by
  have hW : ∀ q, q < ceil8 w →
      (mkScr buf cells w h).getD (y * ceil8 w + q) 0
        = (packChunks (rowBits buf cells w y)).getD q 0 := by
    intro q hq
    rcases mkScr_byte buf cells w h y q hy with hb | hb
    · exact hb
    · exact absurd hq hb
  constructor
  · have hq : x >>> 3 < ceil8 w := by
      rw [Nat.shiftRight_eq_div_pow, ceil8_eq]
      norm_num
      omega
    rw [hW _ hq]
    have hlen : x >>> 3 < (packChunks (rowBits buf cells w y)).length := by
      rw [length_packChunks, rowBits, List.length_map, List.length_range,
        Nat.shiftRight_eq_div_pow]
      norm_num
      omega
    rw [testBit_packChunks (x >>> 3) _ (x % 8) (by omega) hlen]
    have hxi : 8 * (x >>> 3) + x % 8 = x := by
      rw [Nat.shiftRight_eq_div_pow]
      norm_num
      omega
    rw [hxi, rowBits, List.getD_eq_getElem?_getD, List.getElem?_map, List.getElem?_range hx]
    rfl
  · intro q j hq hj hwle
    rw [hW _ hq]
    have hlen : q < (packChunks (rowBits buf cells w y)).length := by
      rw [ceil8_eq] at hq
      rw [length_packChunks, rowBits, List.length_map, List.length_range]
      omega
    rw [testBit_packChunks q _ j hj hlen]
    apply getD_false_of_le
    rw [rowBits, List.length_map, List.length_range]
    omega

/-- Witness for `c2_bitmap_packing`: a 3×1 image whose only ink pixel is at
`x = 0` produces a first byte with bit 7 set. -/
theorem c2_bitmap_packing_witness :
    Nat.testBit ((mkScr (fun x _ => if x = 0 then 1 else 0) (fun _ _ => (0, 0)) 3 1).getD 0 0) 7
      = true := by
  have h := (c2_bitmap_packing (fun x _ => if x = 0 then 1 else 0) (fun _ _ => (0, 0))
    3 1 0 0 (by decide) (by decide)).1
  simpa using h

theorem length_encodeCells (prefer : Option Bool) (apal : List Nat)
    (cells : Nat → Nat → Nat × Nat) :
    ∀ (l : List (Nat × Nat)) (out : List Nat),
      encodeCells prefer apal cells l = .ok out → out.length = l.length := by
  intro l
  induction l with
  | nil =>
    intro out h
    simp only [encodeCells] at h
    cases h
    rfl
  | cons p rest ih =>
    intro out h
    obtain ⟨x, y⟩ := p
    simp only [encodeCells] at h
    split at h
    · cases h
    · split at h
      · cases h
      · cases h
        rename_i bs hbs
        simp only [List.length_cons]
        rw [ih bs hbs]

theorem length_cellIdxs (y8 wB : Nat) : (cellIdxs y8 wB).length = y8 * wB := by
  rw [cellIdxs, List.length_flatMap]
  have hrep : List.map (List.length ∘ fun y => (List.range wB).map fun x => (x, y))
      (List.range y8) = List.replicate y8 wB := by
    apply List.eq_replicate_iff.mpr
    constructor
    · simp
    · intro b hb
      simp only [List.mem_map, Function.comp] at hb
      obtain ⟨y, _, rfl⟩ := hb
      simp
  rw [hrep, List.sum_replicate, smul_eq_mul]

theorem length_mkScr (buf : Nat → Nat → Nat) (cells : Nat → Nat → Nat × Nat) (w h : Nat) :
    (mkScr buf cells w h).length = h * ceil8 w := by
  rw [mkScr, List.length_flatMap]
  have hrep : List.map (List.length ∘ fun y => packRow ((List.range w).map
      fun x => inkBit buf cells x y)) (List.range h) = List.replicate h (ceil8 w) := by
    apply List.eq_replicate_iff.mpr
    constructor
    · simp
    · intro b hb
      simp only [List.mem_map, Function.comp] at hb
      obtain ⟨y, _, rfl⟩ := hb
      rw [length_packRow, List.length_map, List.length_range, ceil8_eq]
  rw [hrep, List.sum_replicate, smul_eq_mul]

/-- Shape of any successful run of `im2scr`: the resulting state is built
from the (possibly swapped) buffer and palette, with the sizes recording
the lengths of the emitted buffers. -/
theorem im2scr_ok (prefer : Option Bool) (img : Img) (st : St)
    (h : im2scr prefer img = .ok st) :
    ∃ buf apal,
      st.scr = mkScr buf (mkCells buf img.w img.h) img.w img.h
      ∧ st.scrSize = st.scr.length
      ∧ st.attrSize = st.attr.length
      ∧ st.w = ceil8 img.w
      ∧ st.h = img.h
      ∧ encodeCells prefer apal (mkCells buf img.w img.h)
          (cellIdxs (ceil8 img.h) (ceil8 img.w)) = .ok st.attr := by
  simp only [im2scr] at h
  split at h
  · cases h
  · split at h
    · cases h
    · split at h
      · cases h
      · rename_i buf apal hnorm
        split at h
        · cases h
        · rename_i attr henc
          cases h
          exact ⟨buf, apal, rfl, rfl, rfl, rfl, rfl, henc⟩

/-- `maxChan` over a constant palette tail keeps an accumulator the
constant does not exceed. -/
theorem foldl_max_replicate (n : Nat) : ∀ (a c : Nat), ¬ c > a →
    (List.replicate n c).foldl (fun h v => if v > h then v else h) a = a := by
  induction n with
  | zero => intro a c _; rfl
  | succ n ih =>
    intro a c hc
    rw [List.replicate_succ, List.foldl_cons, if_neg hc]
    exact ih a c hc

/-- `classifyAll` over identical palette entries yields identical
attributes. -/
theorem classifyAll_replicate (prefer : Option Bool) (hgh : Nat) (t : Nat × Nat × Nat)
    (a : Nat) (h : verifyrgb prefer hgh t.1 t.2.1 t.2.2 = .ok a) :
    ∀ n, classifyAll prefer hgh (List.replicate n t) = .ok (List.replicate n a) := by
  intro n
  induction n with
  | zero => rfl
  | succ n ih =>
    rw [List.replicate_succ, List.replicate_succ]
    simp only [classifyAll, h, ih]

/-- Regrouping a constant flat palette gives constant triples. -/
theorem triples_replicate (v n num : Nat) (hnum : 3 * num ≤ n) :
    triples (List.replicate n v) num = List.replicate num (v, v, v) := by
  rw [triples]
  apply List.eq_replicate_iff.mpr
  constructor
  · simp
  · intro b hb
    simp only [List.mem_map, List.mem_range] at hb
    obtain ⟨i, hi, rfl⟩ := hb
    have h1 : (List.replicate n v).getD (3 * i) 0 = v := by
      rw [List.getD_eq_getElem?_getD, List.getElem?_replicate, if_pos (by omega)]
      rfl
    have h2 : (List.replicate n v).getD (3 * i + 1) 0 = v := by
      rw [List.getD_eq_getElem?_getD, List.getElem?_replicate, if_pos (by omega)]
      rfl
    have h3 : (List.replicate n v).getD (3 * i + 2) 0 = v := by
      rw [List.getD_eq_getElem?_getD, List.getElem?_replicate, if_pos (by omega)]
      rfl
    rw [h1, h2, h3]

/-- A 1×1 black image in the shape PIL hands `im2scr`: `im.histogram()`
always has 256 entries and `im.getpalette()` always has 768 values, so
`numcolors` is 256 and the palette is the zero-padded (all-black) one. -/
def img1 : Img := ⟨1, 1, List.replicate 768 0, 256, fun _ _ => 0⟩

set_option maxHeartbeats 4000000 in
set_option maxRecDepth 100000 in
/-- The conversion of the padded 1×1 black image: all 256 palette entries
classify to attribute 0 and the pipeline succeeds. -/
theorem im2scr_img1 : im2scr none img1 = .ok ⟨[0], [0], 1, 1, 1, 1⟩ := by
  have hcond : ¬ (histogram img1).length - (histogram img1).count 0 > 16 := by decide
  have hpal : pal2attr none img1.pal img1.numcolors = .ok (List.replicate 256 0) := by
    show classifyAll none (maxChan ((List.replicate 768 0).take (256 * 3)))
      (triples (List.replicate 768 0) 256) = .ok (List.replicate 256 0)
    rw [triples_replicate 0 768 256 (by omega)]
    exact classifyAll_replicate none _ (0, 0, 0) 0 rfl 256
  simp only [im2scr]
  rw [if_neg hcond, hpal]
  rfl

/-- A 1×1 image in PIL shape all 256 of whose palette entries are pure
white (realisable with `putpalette([255]*768)`): no palette entry
classifies to attribute `0`. -/
def imgAllWhite : Img := ⟨1, 1, List.replicate 768 255, 256, fun _ _ => 0⟩

set_option maxHeartbeats 4000000 in
set_option maxRecDepth 100000 in
/-- The largest channel value of the all-white padded palette is 255. -/
theorem maxChan_imgAllWhite : maxChan (imgAllWhite.pal.take (256 * 3)) = 255 := by
  have htake : imgAllWhite.pal.take (256 * 3) = imgAllWhite.pal :=
    List.take_of_length_le (by simp [imgAllWhite])
  rw [htake]
  show (List.replicate 768 (255 : Nat)).foldl (fun h v => if v > h then v else h) 0 = 255
  have hrep : List.replicate 768 (255 : Nat) = 255 :: List.replicate 767 255 := by
    rw [show (768 : Nat) = 767 + 1 from rfl, List.replicate_succ]
  rw [hrep, List.foldl_cons]
  norm_num
  rw [foldl_max_replicate 767 255 255 (by omega)]

set_option maxHeartbeats 4000000 in
set_option maxRecDepth 100000 in
/-- Every entry of the all-white padded palette classifies to 0x47. -/
theorem pal2attr_imgAllWhite :
    pal2attr none imgAllWhite.pal imgAllWhite.numcolors
      = .ok (List.replicate 256 0x47) := by
  have ht : triples imgAllWhite.pal 256 = List.replicate 256 (255, 255, 255) :=
    triples_replicate 255 768 256 (by omega)
  show classifyAll none (maxChan (imgAllWhite.pal.take (256 * 3))) (triples imgAllWhite.pal 256)
    = .ok (List.replicate 256 0x47)
  rw [maxChan_imgAllWhite, ht]
  exact classifyAll_replicate none 255 (255, 255, 255) 0x47 rfl 256

/-- A 1×1 image in PIL shape (256 palette entries, 768 palette values)
whose first palette entry is `(215, 255, 0)`: with the largest channel
value 255, R = 215 is closer to `mid = 0.85 * 255` while G = 255 is closer
to 255, so the dim and bright candidate codes are both nonzero.  The
remaining entries are PIL's zero padding. -/
def imgConflict : Img :=
  ⟨1, 1, 215 :: 255 :: 0 :: List.replicate 765 0, 256, fun _ _ => 0⟩

set_option maxHeartbeats 4000000 in
set_option maxRecDepth 100000 in
/-- The largest channel value of the conflicting padded palette is 255. -/
theorem maxChan_imgConflict : maxChan (imgConflict.pal.take (256 * 3)) = 255 := by
  have htake : imgConflict.pal.take (256 * 3) = imgConflict.pal :=
    List.take_of_length_le (by simp [imgConflict])
  rw [htake]
  show (215 :: 255 :: 0 :: List.replicate 765 0).foldl (fun h v => if v > h then v else h) 0
    = 255
  rw [List.foldl_cons, List.foldl_cons, List.foldl_cons]
  norm_num
  rw [foldl_max_replicate 765 255 0 (by omega)]

set_option maxHeartbeats 4000000 in
set_option maxRecDepth 100000 in
/-- Classifying the conflicting palette raises at its first entry. -/
theorem pal2attr_imgConflict :
    pal2attr none imgConflict.pal imgConflict.numcolors = .error .classConflict := by
  show classifyAll none (maxChan (imgConflict.pal.take (256 * 3))) (triples imgConflict.pal 256)
    = .error .classConflict
  rw [maxChan_imgConflict]
  rfl

/-- `im2scr` propagates a classification failure. -/
theorem im2scr_classify_error (prefer : Option Bool) (img : Img) (e : Err)
    (hcond : ¬ (histogram img).length - (histogram img).count 0 > 16)
    (hpal : pal2attr prefer img.pal img.numcolors = .error e) :
    im2scr prefer img = .error e := by
  simp only [im2scr]
  rw [if_neg hcond, hpal]

set_option maxHeartbeats 4000000 in
set_option maxRecDepth 100000 in
/-- **C1** (counterexample): the 1×1 image with first palette entry
`(215, 255, 0)` uses at most 16 distinct colours and is within the 256×192
bounds, yet `im2scr` with the (default) unset brightness preference does
not succeed: classification of that entry hits a BRIGHT conflict and the
pipeline aborts with the classification-conflict error, so the claim that
conversion succeeds for every such image is false. -/
theorem c1_counterexample :
    (histogram imgConflict).length - (histogram imgConflict).count 0 ≤ 16
    ∧ imgConflict.w ≤ 256 ∧ imgConflict.h ≤ 192
    ∧ im2scr none imgConflict = .error .classConflict := by
  have hcond : ¬ (histogram imgConflict).length - (histogram imgConflict).count 0 > 16 := by
    decide
  exact ⟨by omega, by decide, by decide,
    im2scr_classify_error none imgConflict .classConflict hcond pal2attr_imgConflict⟩

/-- **C1** (amended): whenever the conversion pipeline succeeds on an image
within bounds, it produces a bitmap of exactly `ceil(w/8) * h` bytes and an
attribute buffer of exactly `ceil(w/8) * ceil(h/8)` bytes, and
`getScrSize` / `getAttrSize` return exactly those byte counts.  (The
original claim also asserted that conversion always succeeds for ≤16-colour
in-bounds images, which `c1_counterexample` refutes.) -/
theorem c1_sizes (prefer : Option Bool) (img : Img) (st : St)
    (hw : 1 ≤ img.w) (hh : 1 ≤ img.h)
    (hok : im2scr prefer img = .ok st) :
    st.scr.length = (img.w + 7) / 8 * img.h
    ∧ st.attr.length = (img.w + 7) / 8 * ((img.h + 7) / 8)
    ∧ getScrSize st = (img.w + 7) / 8 * img.h
    ∧ getAttrSize st = (img.w + 7) / 8 * ((img.h + 7) / 8) := by
  obtain ⟨buf, apal, hscr, hssz, hasz, hwB, hhh, henc⟩ := im2scr_ok prefer img st hok
  have h1 : st.scr.length = (img.w + 7) / 8 * img.h := by
    rw [hscr, length_mkScr, ceil8_eq]
    ring
  have h2 : st.attr.length = (img.w + 7) / 8 * ((img.h + 7) / 8) := by
    have hl := length_encodeCells prefer apal (mkCells buf img.w img.h)
      (cellIdxs (ceil8 img.h) (ceil8 img.w)) st.attr henc
    rw [hl, length_cellIdxs, ceil8_eq, ceil8_eq]
    ring
  exact ⟨h1, h2, by rw [getScrSize, hssz]; exact h1, by rw [getAttrSize, hasz]; exact h2⟩

set_option maxHeartbeats 4000000 in
set_option maxRecDepth 100000 in
/-- Witness for `c1_sizes`: the 1×1 black image converts successfully and
the getters return the claimed sizes. -/
theorem c1_sizes_witness :
    getScrSize ⟨[0], [0], 1, 1, 1, 1⟩ = (1 + 7) / 8 * 1
    ∧ getAttrSize ⟨[0], [0], 1, 1, 1, 1⟩ = (1 + 7) / 8 * ((1 + 7) / 8) :=
  ⟨(c1_sizes none img1 ⟨[0], [0], 1, 1, 1, 1⟩ (by decide) (by decide) im2scr_img1).2.2.1,
   (c1_sizes none img1 ⟨[0], [0], 1, 1, 1, 1⟩ (by decide) (by decide) im2scr_img1).2.2.2⟩

set_option maxRecDepth 100000 in
/-- **C4**: for every row index `y` in `0..191`, `y2zx` keeps bits 6–7 of
`y` unchanged and swaps the 3-bit field at bits 3–5 with the 3-bit field at
bits 0–2; it maps `0..191` into `0..191`, is an involution there
(`y2zx (y2zx y) = y`), and is therefore injective: every physical row index
appears exactly once. -/
theorem c4_y2zx (y : Nat) (hy : y < 192) :
    y2zx y < 192
    ∧ y2zx (y2zx y) = y
    ∧ Nat.testBit (y2zx y) 6 = Nat.testBit y 6
    ∧ Nat.testBit (y2zx y) 7 = Nat.testBit y 7
    ∧ (y2zx y) &&& 7 = (y >>> 3) &&& 7
    ∧ ((y2zx y) >>> 3) &&& 7 = y &&& 7
    ∧ (∀ z, z < 192 → y2zx y = y2zx z → y = z) := by
  have base : ∀ v, v < 192 →
      y2zx v < 192
      ∧ y2zx (y2zx v) = v
      ∧ Nat.testBit (y2zx v) 6 = Nat.testBit v 6
      ∧ Nat.testBit (y2zx v) 7 = Nat.testBit v 7
      ∧ (y2zx v) &&& 7 = (v >>> 3) &&& 7
      ∧ ((y2zx v) >>> 3) &&& 7 = v &&& 7 := by decide
  obtain ⟨b1, b2, b3, b4, b5, b6⟩ := base y hy
  refine ⟨b1, b2, b3, b4, b5, b6, ?_⟩
  intro z hz heq
  have hz2 := (base z hz).2.1
  rw [← b2, heq, hz2]

/-- Witness for `c4_y2zx` at `y = 1` (which maps to physical row 8). -/
theorem c4_y2zx_witness : y2zx (y2zx 1) = 1 ∧ y2zx 1 = 8 :=
  ⟨(c4_y2zx 1 (by decide)).2.1, by decide⟩

/-- **C5**: with the preference tri-state unset, a brightness conflict
always raises an exception and never silently picks a default: `verifyrgb`
raises the classification conflict whenever both candidate codes are
nonzero, and the attribute encoder raises the attribute conflict whenever
paper and ink attributes are both nonzero with differing BRIGHT bits. -/
theorem c5_conflicts_raise (hgh r g b paper ink : Nat)
    (hc : (candidates hgh r g b).1 ≠ 0) (hcb : (candidates hgh r g b).2 ≠ 0)
    (hp : paper ≠ 0) (hi : ink ≠ 0) (hbr : (paper ^^^ ink) &&& 0x40 ≠ 0) :
    verifyrgb none hgh r g b = .error .classConflict
    ∧ encodeAttr none paper ink = .error .attrConflict := by
  constructor
  · simp only [verifyrgb]
    rw [if_pos ⟨Nat.pos_of_ne_zero hc, Nat.pos_of_ne_zero hcb⟩]
  · rw [encodeAttr, if_pos ⟨hp, hi, hbr⟩]

/-- Witness for `c5_conflicts_raise`: the entry (215, 255, 0) with largest
channel 255 has dim candidate 4 and bright candidate 2; the attribute pair
(2, 0x47) differs in BRIGHT. -/
theorem c5_conflicts_raise_witness :
    verifyrgb none 255 215 255 0 = .error .classConflict
    ∧ encodeAttr none 2 0x47 = .error .attrConflict :=
  c5_conflicts_raise 255 215 255 0 2 0x47 (by decide) (by decide) (by decide) (by decide)
    (by decide)

/-- **C8** (counterexample): the entry (215, 0, 0) with largest channel 255
classifies to the attribute scalar `2` (the ZX red code), not `4`: the
output runs through the `_palette` table, which maps the internal R/G/B
presence code 4 to the ZX G/R/B hue code 2. -/
theorem c8_counterexample :
    verifyrgb none 255 215 0 0 = .ok 2 ∧ (2 : Nat) ≠ 4 :=
  ⟨rfl, by decide⟩

/-- **C8** (amended): the palette entry (215, 0, 0) with threshold 100 and
largest channel M = 255 classifies as dim red: 215 is closer to
`mid = 0.85 * 255 = 216.75` than to 255 (scaled by 20:
`|20*215 - 17*255| = 35 < 800 = 20*|215 - 255|`), so the dim candidate code
is 4 (the R presence bit) with BRIGHT = 0, and the returned attribute
scalar is `_palette[4] = 2` with no 0x40 BRIGHT flag. -/
theorem c8_dim_red :
    closerToMid 255 215 = true
    ∧ candidates 255 215 0 0 = (4, 0)
    ∧ verifyrgb none 255 215 0 0 = .ok (zxPalette.getD 4 0)
    ∧ zxPalette.getD 4 0 = 2 :=
  ⟨by decide, by decide, rfl, by decide⟩

/-- **C9**: the emitted attribute byte is `(ink | (paper << 3)) & 0xff`, so
for attributes with bit 3 clear (every classified attribute is
`hue | 0x40?` with `hue < 8`) the BRIGHT bit of the byte comes solely from
the ink attribute: the paper attribute's 0x40 bit is shifted to bit 9 and
discarded by the 8-bit mask.  In particular a cell whose ink attribute is
`0` raises no conflict whatever the paper brightness, and the resulting
byte has BRIGHT = 0. -/
theorem c9_paper_bright_lost (prefer : Option Bool) (paper ink : Nat)
    (hp3 : Nat.testBit paper 3 = false) :
    (¬(paper ≠ 0 ∧ ink ≠ 0 ∧ (paper ^^^ ink) &&& 0x40 ≠ 0) →
      encodeAttr prefer paper ink = .ok ((ink ||| (paper <<< 3)) &&& 0xff)
      ∧ Nat.testBit ((ink ||| (paper <<< 3)) &&& 0xff) 6 = Nat.testBit ink 6)
    ∧ (ink = 0 →
      encodeAttr prefer paper ink = .ok ((ink ||| (paper <<< 3)) &&& 0xff)
      ∧ Nat.testBit ((ink ||| (paper <<< 3)) &&& 0xff) 6 = false) := by
  have key : Nat.testBit ((ink ||| (paper <<< 3)) &&& 0xff) 6 = Nat.testBit ink 6 := by
    have h255 : Nat.testBit 0xff 6 = true := by decide
    have hd : decide ((6:Nat) ≥ 3) = true := by decide
    have h63 : (6:Nat) - 3 = 3 := rfl
    rw [Nat.testBit_and, Nat.testBit_or, Nat.testBit_shiftLeft, h255, Bool.and_true,
      hd, Bool.true_and, h63, hp3, Bool.or_false]
  constructor
  · intro hnc
    exact ⟨by rw [encodeAttr.eq_def, if_neg hnc], key⟩
  · intro hi0
    have hnc : ¬(paper ≠ 0 ∧ ink ≠ 0 ∧ (paper ^^^ ink) &&& 0x40 ≠ 0) := by
      rintro ⟨-, hi, -⟩
      exact hi hi0
    refine ⟨by rw [encodeAttr.eq_def, if_neg hnc], ?_⟩
    rw [key, hi0]
    decide

/-- Witness for `c9_paper_bright_lost`: bright white paper (0x47) with
black ink (0) encodes without error and the BRIGHT bit of the byte is 0. -/
theorem c9_paper_bright_lost_witness :
    encodeAttr none 0x47 0 = .ok (((0 : Nat) ||| (0x47 <<< 3)) &&& 0xff)
    ∧ Nat.testBit (((0 : Nat) ||| (0x47 <<< 3)) &&& 0xff) 6 = false :=
  (c9_paper_bright_lost none 0x47 0 (by decide)).2 rfl

/-- The converted all-black 256×63 image of the concrete scenario of C6. -/
def img63 : Img := ⟨256, 63, [0, 0, 0], 1, fun _ _ => 0⟩

/-- Every cell of an all-zero buffer selects `(0, 0)`. -/
theorem selectcolors_zero (buf : Nat → Nat → Nat) (hbuf : ∀ x y, buf x y = 0)
    (stax stay w h : Nat) : selectcolors buf stax stay w h = (0, 0) := by
  have hflt : (cellPixels buf stax stay w h).filter (fun p => p ≠ 0) = [] := by
    rw [List.filter_eq_nil_iff]
    intro p hp
    simp only [cellPixels, List.mem_flatMap, List.mem_map, List.mem_range] at hp
    obtain ⟨dy, -, dx, -, rfl⟩ := hp
    simp [hbuf]
  have hnz : nzColors (cellPixels buf stax stay w h) = [] := by
    rw [nzColors, hflt]
    rfl
  simp only [selectcolors, sortedColors, hnz]
  rfl

/-- The attribute loop succeeds (and emits `0` everywhere) when every cell
selected `(0, 0)` and the classified palette has attribute `0` in slot 0. -/
theorem encodeCells_zero (prefer : Option Bool) (apal : List Nat)
    (cells : Nat → Nat → Nat × Nat) (hc : ∀ cx cy, cells cx cy = (0, 0))
    (ha : apal.getD 0 0 = 0) :
    ∀ l : List (Nat × Nat), encodeCells prefer apal cells l = .ok (List.replicate l.length 0) := by
  intro l
  induction l with
  | nil => rfl
  | cons p rest ih =>
    obtain ⟨x, y⟩ := p
    simp only [encodeCells]
    have he : encodeAttr prefer (apal.getD (cells x y).1 0) (apal.getD (cells x y).2 0)
        = .ok 0 := by
      rw [hc x y]
      simp only []
      rw [ha, encodeAttr.eq_def, if_neg (by simp)]
      rfl
    rw [he, ih]
    rfl

set_option maxRecDepth 40000 in
/-- `im2scr` succeeds on the all-black 256×63 image. -/
theorem im2scr_img63_ok :
    im2scr none img63
      = .ok ⟨mkScr img63.px (mkCells img63.px 256 63) 256 63,
             List.replicate (cellIdxs (ceil8 63) (ceil8 256)).length 0,
             (mkScr img63.px (mkCells img63.px 256 63) 256 63).length,
             (List.replicate (cellIdxs (ceil8 63) (ceil8 256)).length 0).length,
             ceil8 256, 63⟩ := by
  have hcond : ¬ (histogram img63).length - (histogram img63).count 0 > 16 := by
    have hlen : (histogram img63).length = 1 := by
      rw [histogram, List.length_map, List.length_range]
      rfl
    omega
  have hcells : ∀ cx cy, mkCells img63.px 256 63 cx cy = (0, 0) := by
    intro cx cy
    exact selectcolors_zero img63.px (fun _ _ => rfl) _ _ _ _
  have h1 : im2scr none img63
      = (match encodeCells none [0] (mkCells img63.px 256 63)
            (cellIdxs (ceil8 63) (ceil8 256)) with
        | .error e => .error e
        | .ok attr => .ok ⟨mkScr img63.px (mkCells img63.px 256 63) 256 63, attr,
            (mkScr img63.px (mkCells img63.px 256 63) 256 63).length, attr.length,
            ceil8 256, 63⟩) := by
    simp only [im2scr]
    rw [if_neg hcond]
    rfl
  rw [h1, encodeCells_zero none [0] (mkCells img63.px 256 63) hcells rfl]

/-- **C6**: saving in native (non-linear) mode fails with the layout-size
error whenever the final height is not a multiple of 64, and no bytes are
produced; linear mode always succeeds regardless of height; in both modes
the attribute bytes, when requested, follow the bitmap unpermuted.
Concretely, `im2scr` succeeds on the 256×63 image (final height 63) and the
resulting state fails native save while linear save succeeds. -/
theorem c6_saveZX (st : St) (attrs : Bool) :
    (st.h % 64 ≠ 0 → saveZX st attrs false = .error .layoutSize)
    ∧ saveZX st attrs true
        = .ok (st.scr.take st.scrSize ++ (if attrs then st.attr.take st.attrSize else []))
    ∧ (st.h % 64 = 0 → saveZX st attrs false
        = .ok (zxRows st ++ (if attrs then st.attr.take st.attrSize else [])))
    ∧ (∃ st63, im2scr none img63 = .ok st63 ∧ st63.h = 63
        ∧ saveZX st63 true false = .error .layoutSize
        ∧ saveZX st63 true true
            = .ok (st63.scr.take st63.scrSize ++ st63.attr.take st63.attrSize)) := by
  refine ⟨?_, ?_, ?_, ?_⟩
  · intro hne
    simp [saveZX, hne]
  · simp [saveZX]
  · intro he
    simp [saveZX, he]
  · refine ⟨_, im2scr_img63_ok, rfl, by simp [saveZX], by simp [saveZX]⟩

/-- Witness for `c6_saveZX`: a state of height 63 fails native save. -/
theorem c6_saveZX_witness :
    saveZX ⟨[0], [0], 1, 1, 1, 63⟩ true false = .error .layoutSize :=
  (c6_saveZX ⟨[0], [0], 1, 1, 1, 63⟩ true).1 (by decide)

theorem swapPix_swapPix (p0 v : Nat) : swapPix p0 (swapPix p0 v) = v := by
  simp only [swapPix]
  split_ifs <;> omega

theorem getElem?_swap_pal (l : List Nat) (i : Nat) (hi : i < l.length) (n : Nat) :
    ((l.set 0 (l.getD i 0)).set i (l.getD 0 0))[n]?
      = if n = i then some (l.getD 0 0)
        else if n = 0 then some (l.getD i 0)
        else l[n]? := by
  have h0 : 0 < l.length := by omega
  by_cases hni : n = i
  · subst hni
    rw [List.getElem?_set_self (by simpa using hi), if_pos rfl]
  · rw [List.getElem?_set_ne (fun hh => hni hh.symm), if_neg hni]
    by_cases hn0 : n = 0
    · subst hn0
      rw [List.getElem?_set_self (by simpa using h0), if_pos rfl]
    · rw [List.getElem?_set_ne (fun hh => hn0 hh.symm), if_neg hn0]

theorem getD_swap_pal_at (l : List Nat) (i : Nat) (hi : i < l.length) :
    ((l.set 0 (l.getD i 0)).set i (l.getD 0 0)).getD i 0 = l.getD 0 0
    ∧ ((l.set 0 (l.getD i 0)).set i (l.getD 0 0)).getD 0 0 = l.getD i 0 := by
  constructor
  · rw [List.getD_eq_getElem?_getD, getElem?_swap_pal l i hi, if_pos rfl]
    rfl
  · rw [List.getD_eq_getElem?_getD, getElem?_swap_pal l i hi]
    by_cases h0i : (0 : Nat) = i
    · rw [if_pos h0i, ← h0i]
      rfl
    · rw [if_neg h0i, if_pos rfl]
      rfl

theorem swap_pal_twice (l : List Nat) (i : Nat) (hi : i < l.length) :
    let p := (l.set 0 (l.getD i 0)).set i (l.getD 0 0)
    (p.set 0 (p.getD i 0)).set i (p.getD 0 0) = l := by
  intro p
  have hplen : p.length = l.length := by simp [p]
  have hgd := getD_swap_pal_at l i hi
  apply List.ext_getElem?
  intro n
  rw [getElem?_swap_pal p i (by omega) n, hgd.1, hgd.2]
  by_cases hni : n = i
  · rw [if_pos hni, hni, List.getD_eq_getElem?_getD]
    cases hl : l[i]? with
    | none =>
      rw [List.getElem?_eq_none_iff] at hl
      omega
    | some a => rfl
  · rw [if_neg hni]
    by_cases hn0 : n = 0
    · rw [if_pos hn0, hn0, List.getD_eq_getElem?_getD]
      cases hl : l[0]? with
      | none =>
        rw [List.getElem?_eq_none_iff] at hl
        omega
      | some a => rfl
    · rw [if_neg hn0]
      show ((l.set 0 (l.getD i 0)).set i (l.getD 0 0))[n]? = l[n]?
      rw [getElem?_swap_pal l i hi n, if_neg hni, if_neg hn0]

/-- **C7**: background normalisation is idempotent.  When the classified
palette already has attribute 0 at index 0 the normaliser leaves both the
buffer and the palette unchanged, and applying the index-0 swap
(`swappaper0`) twice restores the original pixel grid and palette. -/
theorem c7_normalize_idempotent (buf : Nat → Nat → Nat) (w h : Nat) (apal : List Nat)
    (paper0 : Nat) :
    (apal.getD 0 0 = 0 → apal ≠ [] → normalize buf w h apal = .ok (buf, apal))
    ∧ (paper0 < apal.length →
        swappaper0 (swappaper0 buf w h apal paper0).1 w h
            (swappaper0 buf w h apal paper0).2 paper0
          = (buf, apal)) := by
  constructor
  · intro h0 hne
    obtain ⟨a, rest, rfl⟩ := List.exists_cons_of_ne_nil hne
    rw [List.getD_cons_zero] at h0
    subst h0
    rw [normalize.eq_def]
    simp [List.findIdx?]
  · intro hlt
    simp only [swappaper0]
    rw [Prod.mk.injEq]
    constructor
    · funext x y
      by_cases hxy : x < w ∧ y < h
      · simp only [if_pos hxy, swapPix_swapPix]
      · simp only [if_neg hxy]
    · exact swap_pal_twice apal paper0 hlt

/-- Witness for `c7_normalize_idempotent`: a palette with attribute 0 in
slot 0 is left unchanged, and swapping twice with `paper0 = 1` restores a
concrete palette. -/
theorem c7_normalize_idempotent_witness :
    normalize (fun _ _ => 0) 1 1 [0, 2] = .ok (fun _ _ => 0, [0, 2])
    ∧ swappaper0 (swappaper0 (fun _ _ => 0) 1 1 [2, 0] 1).1 1 1
        (swappaper0 (fun _ _ => 0) 1 1 [2, 0] 1).2 1 = (fun _ _ => 0, [2, 0]) :=
  ⟨(c7_normalize_idempotent (fun _ _ => 0) 1 1 [0, 2] 1).1 (by decide) (by decide),
   (c7_normalize_idempotent (fun _ _ => 0) 1 1 [2, 0] 1).2 (by decide)⟩

/-- **C10**: successful conversion requires a palette entry classifying to
attribute 0.  If the distinct-colour check passes and classification
succeeds but no classified attribute equals 0, the pipeline aborts during
background normalisation with the untyped `ValueError` of `apal.index(0)`
(an error kind outside the `ZXException` taxonomy), before any bitmap or
attribute buffer is produced. -/
theorem c10_no_black_value_error (prefer : Option Bool) (img : Img) (apal : List Nat)
    (hcount : ¬ (histogram img).length - (histogram img).count 0 > 16)
    (hpal : pal2attr prefer img.pal img.numcolors = .ok apal)
    (hnz : ∀ a ∈ apal, a ≠ 0) :
    im2scr prefer img = .error .valueError := by
  have hfind : apal.findIdx? (· == 0) = none := by
    rw [List.findIdx?_eq_none_iff]
    intro x hx
    simpa using hnz x hx
  simp only [im2scr, if_neg hcount, hpal, normalize, hfind]

set_option maxHeartbeats 4000000 in
set_option maxRecDepth 100000 in
/-- Witness for `c10_no_black_value_error`: the all-white 1×1 image, every
one of whose 256 palette entries classifies to 0x47. -/
theorem c10_no_black_value_error_witness :
    im2scr none imgAllWhite = .error .valueError :=
  c10_no_black_value_error none imgAllWhite (List.replicate 256 0x47) (by decide)
    pal2attr_imgAllWhite (by intro a ha; rw [List.eq_of_mem_replicate ha]; decide)

theorem nodup_nzColors (ps : List Nat) : (nzColors ps).Nodup := List.nodup_dedup _

theorem sortedColors_perm (ps : List Nat) : (sortedColors ps).Perm (nzColors ps) :=
  List.perm_insertionSort _ _

theorem sortedColors_sorted (ps : List Nat) :
    List.Sorted (fun a b => ps.count b ≤ ps.count a) (sortedColors ps) := by
  haveI ht : IsTotal Nat (fun a b => ps.count b ≤ ps.count a) :=
    ⟨fun a b => le_total (ps.count b) (ps.count a)⟩
  haveI htr : IsTrans Nat (fun a b => ps.count b ≤ ps.count a) :=
    ⟨fun _ _ _ hab hbc => le_trans hbc hab⟩
  exact List.sorted_insertionSort _ _

/-- The head of the sorted colour list is the unique colour of maximal
count. -/
theorem sortedColors_head (ps : List Nat) (m : Nat) (hm : m ∈ nzColors ps)
    (hmax : ∀ c ∈ nzColors ps, c ≠ m → ps.count c < ps.count m) :
    ∃ rest, sortedColors ps = m :: rest := by
  have hperm := sortedColors_perm ps
  have hmem : m ∈ sortedColors ps := hperm.mem_iff.mpr hm
  cases hsc : sortedColors ps with
  | nil =>
    rw [hsc] at hmem
    simp at hmem
  | cons c0 rest =>
    refine ⟨rest, ?_⟩
    by_cases hc0 : c0 = m
    · rw [hc0]
    · exfalso
      have hc0mem : c0 ∈ nzColors ps := hperm.mem_iff.mp (by rw [hsc]; simp)
      have h1 : ps.count c0 < ps.count m := hmax c0 hc0mem hc0
      have hsorted := sortedColors_sorted ps
      rw [hsc] at hsorted
      have hmrest : m ∈ rest := by
        rw [hsc] at hmem
        rcases List.mem_cons.mp hmem with he | hr
        · exact absurd he.symm hc0
        · exact hr
      have h2 : ps.count m ≤ ps.count c0 := (List.sorted_cons.mp hsorted).1 m hmrest
      omega

/-- The second element of the sorted colour list is the unique colour of
second-largest count. -/
theorem sortedColors_second (ps : List Nat) (m s : Nat) (hm : m ∈ nzColors ps)
    (hmax : ∀ c ∈ nzColors ps, c ≠ m → ps.count c < ps.count m)
    (hs : s ∈ nzColors ps) (hsm : s ≠ m)
    (hsecond : ∀ c ∈ nzColors ps, c ≠ m → c ≠ s → ps.count c < ps.count s) :
    ∃ rest, sortedColors ps = m :: s :: rest := by
  obtain ⟨rest, hsc⟩ := sortedColors_head ps m hm hmax
  have hperm := sortedColors_perm ps
  cases rest with
  | nil =>
    exfalso
    have hmem : s ∈ sortedColors ps := hperm.mem_iff.mpr hs
    rw [hsc] at hmem
    simp at hmem
    exact hsm hmem
  | cons c1 rest' =>
    refine ⟨rest', ?_⟩
    by_cases hc1 : c1 = s
    · rw [hsc, hc1]
    · exfalso
      have hnd : (sortedColors ps).Nodup := hperm.symm.nodup (nodup_nzColors ps)
      have hc1mem : c1 ∈ nzColors ps := hperm.mem_iff.mp (by rw [hsc]; simp)
      have hc1m : c1 ≠ m := by
        intro he
        rw [hsc] at hnd
        simp [he] at hnd
      have h1 : ps.count c1 < ps.count s := hsecond c1 hc1mem hc1m hc1
      have hsorted := sortedColors_sorted ps
      rw [hsc] at hsorted
      have hsmem : s ∈ sortedColors ps := hperm.mem_iff.mpr hs
      rw [hsc] at hsmem
      have hs2 : s ∈ rest' := by
        rcases List.mem_cons.mp hsmem with he | hr
        · exact absurd he hsm
        · rcases List.mem_cons.mp hr with he2 | hr2
          · exact absurd he2 (fun he2 => hc1 he2.symm)
          · exact hr2
      have h2 : ps.count s ≤ ps.count c1 :=
        (List.sorted_cons.mp (List.sorted_cons.mp hsorted).2).1 s hs2
      omega

/-- **C3**: for every cell whose non-zero colour frequencies are pairwise
distinct, `selectcolors` returns `(0, 0)` when the cell has no non-zero
colours; `(t, t)` when `t` is the only non-zero colour and no index-0
pixels are present; `(0, t)` when `t` is the only non-zero colour and some
index-0 pixel is present; `(m, s)` for the most frequent `m` and second
most frequent `s` when there are two or more non-zero colours and no
index-0 pixels; and `(0, m)` for the most frequent `m` when there are two
or more non-zero colours and some index-0 pixel. -/
theorem c3_selectcolors (buf : Nat → Nat → Nat) (stax stay w h : Nat)
    (hdist : (nzColors (cellPixels buf stax stay w h)).Pairwise
      (fun a b => (cellPixels buf stax stay w h).count a
        ≠ (cellPixels buf stax stay w h).count b)) :
    (nzColors (cellPixels buf stax stay w h) = [] →
      selectcolors buf stax stay w h = (0, 0))
    ∧ (∀ t, nzColors (cellPixels buf stax stay w h) = [t] →
        0 ∉ cellPixels buf stax stay w h → selectcolors buf stax stay w h = (t, t))
    ∧ (∀ t, nzColors (cellPixels buf stax stay w h) = [t] →
        0 ∈ cellPixels buf stax stay w h → selectcolors buf stax stay w h = (0, t))
    ∧ (∀ m s, 2 ≤ (nzColors (cellPixels buf stax stay w h)).length →
        0 ∉ cellPixels buf stax stay w h →
        m ∈ nzColors (cellPixels buf stax stay w h) →
        (∀ c ∈ nzColors (cellPixels buf stax stay w h), c ≠ m →
          (cellPixels buf stax stay w h).count c < (cellPixels buf stax stay w h).count m) →
        s ∈ nzColors (cellPixels buf stax stay w h) → s ≠ m →
        (∀ c ∈ nzColors (cellPixels buf stax stay w h), c ≠ m → c ≠ s →
          (cellPixels buf stax stay w h).count c < (cellPixels buf stax stay w h).count s) →
        selectcolors buf stax stay w h = (m, s))
    ∧ (∀ m, 2 ≤ (nzColors (cellPixels buf stax stay w h)).length →
        0 ∈ cellPixels buf stax stay w h →
        m ∈ nzColors (cellPixels buf stax stay w h) →
        (∀ c ∈ nzColors (cellPixels buf stax stay w h), c ≠ m →
          (cellPixels buf stax stay w h).count c < (cellPixels buf stax stay w h).count m) →
        selectcolors buf stax stay w h = (0, m)) := by
  refine ⟨?_, ?_, ?_, ?_, ?_⟩
  · intro hnil
    have hsort : sortedColors (cellPixels buf stax stay w h) = [] := by
      rw [sortedColors, hnil]
      rfl
    simp only [selectcolors, hsort]
  · intro t h1 hz
    have hsort : sortedColors (cellPixels buf stax stay w h) = [t] := by
      rw [sortedColors, h1]
      rfl
    simp only [selectcolors, hsort]
    rw [if_neg hz]
  · intro t h1 hz
    have hsort : sortedColors (cellPixels buf stax stay w h) = [t] := by
      rw [sortedColors, h1]
      rfl
    simp only [selectcolors, hsort]
    rw [if_pos hz]
  · intro m s hlen hz hm hmax hs hsm hsecond
    obtain ⟨rest, hsc⟩ := sortedColors_second (cellPixels buf stax stay w h) m s hm hmax hs
      hsm hsecond
    simp only [selectcolors, hsc]
    rw [if_neg hz]
  · intro m hlen hz hm hmax
    obtain ⟨rest, hsc⟩ := sortedColors_head (cellPixels buf stax stay w h) m hm hmax
    simp only [selectcolors, hsc]
    cases rest with
    | nil => rw [if_pos hz]
    | cons c1 rest' => rw [if_pos hz]

/-- Witness for `c3_selectcolors`: a 2×2 cell with three pixels of colour 1
and one pixel of colour 2 selects `(1, 2)`. -/
theorem c3_selectcolors_witness :
    selectcolors (fun x y => if x = 1 ∧ y = 1 then 2 else 1) 0 0 2 2 = (1, 2) :=
  ((c3_selectcolors (fun x y => if x = 1 ∧ y = 1 then 2 else 1) 0 0 2 2 (by decide)).2.2.2.1)
    1 2 (by decide) (by decide) (by decide) (by decide) (by decide) (by decide) (by decide)
